import Mathlib

/-!
Shallow embedding of the `view-rs` image viewer (`src/main.rs`, `src/path.rs`).

Rust strings (`String`, `&str`, the lossy rendering of `PathBuf`) are modelled
as `List Char`; paths are compared and displayed only through their string
rendering in the source, so a path is its character list here.
-/

/-- A path, i.e. the string rendering of a Rust `PathBuf`. -/
abbrev RPath := List Char

/-- Characters of a Lean string literal, used to write concrete paths. -/
def str (s : String) : RPath := s.data

/-! ## Natural comparison (`natural_sort_rs::natural_cmp`)

`src/path.rs` implements `Ord for PathSortable` by delegating to the external
crate function `natural_sort_rs::natural_cmp` applied to the two paths'
`to_string_lossy()` renderings.  The crate's code is not part of this
repository, so the comparator below is modelled from the spec. -/

/-- Numeric value of a decimal digit character. -/
def digitVal (c : Char) : Nat := c.toNat - 48

/-- A maximal run of a decomposed string: either a run of non-digit
characters, or a digit run recorded as (numeric value, run length). -/
inductive NatRun where
  | strRun (cs : List Char)
  | numRun (v len : Nat)
deriving DecidableEq

/-- Modelled from the spec: the decomposition step of
`natural_sort_rs::natural_cmp` (code missing from `src/`): "decompose each
string into an alternating sequence of non-digit and digit runs"; a digit run
is kept as its integer value (ignoring leading zeros) together with its
original length (the spec's tie-break for equal values). -/
def tokenize : List Char → List NatRun
  | [] => []
  | c :: cs =>
    let ts := tokenize cs
    if c.isDigit then
      match ts with
      | .numRun v l :: rest => .numRun (digitVal c * 10 ^ l + v) (l + 1) :: rest
      | _ => .numRun (digitVal c) 1 :: ts
    else
      match ts with
      | .strRun s :: rest => .strRun (c :: s) :: rest
      | _ => .strRun [c] :: ts

/-- Ordinary character ordering, by code point. -/
def cmpChar (a b : Char) : Ordering := compare a.toNat b.toNat

/-- Lexicographic comparison of two lists by an element comparator; a strict
prefix compares less than the longer list. -/
def cmpLex (c : α → α → Ordering) : List α → List α → Ordering
  | [], [] => .eq
  | [], _ :: _ => .lt
  | _ :: _, [] => .gt
  | a :: as, b :: bs => (c a b).then (cmpLex c as bs)

/-- Modelled from the spec: run comparison of `natural_sort_rs::natural_cmp`
(code missing from `src/`): "non-digit runs compare by ordinary character
ordering, digit runs compare by integer value first ... and, only on a numeric
tie, by the original digit-run length".  A digit run against a non-digit run
(the spec leaves this pair open) sorts first, consistently with digits
preceding letters in code-point order. -/
def cmpRun : NatRun → NatRun → Ordering
  | .strRun s, .strRun t => cmpLex cmpChar s t
  | .numRun v l, .numRun w m => (compare v w).then (compare l m)
  | .numRun _ _, .strRun _ => .lt
  | .strRun _, .numRun _ _ => .gt

/-- Modelled from the spec: `natural_sort_rs::natural_cmp` (code missing from
`src/`): compare the two strings' run sequences pairwise; "if one string's run
sequence is a strict prefix of the other's, the shorter string sorts first". -/
def natural_cmp (a b : RPath) : Ordering := cmpLex cmpRun (tokenize a) (tokenize b)

/-! ### Total-order properties of the comparator -/

theorem cmpChar_refl (a : Char) : cmpChar a a = .eq := by
  simp [cmpChar, Nat.compare_eq_eq]

theorem nat_compare_swap (a b : Nat) : compare b a = (compare a b).swap := by
  rcases Nat.lt_trichotomy a b with h | h | h
  · rw [Nat.compare_eq_lt.mpr h, Nat.compare_eq_gt.mpr h]; rfl
  · subst h; rw [Nat.compare_eq_eq.mpr rfl]; rfl
  · rw [Nat.compare_eq_gt.mpr h, Nat.compare_eq_lt.mpr h]; rfl

theorem cmpChar_swap (a b : Char) : cmpChar b a = (cmpChar a b).swap :=
  nat_compare_swap a.toNat b.toNat

theorem cmpChar_eq {a b : Char} (h : cmpChar a b = .eq) : a = b := by
  have hn : a.toNat = b.toNat := Nat.compare_eq_eq.mp h
  have := congrArg Char.ofNat hn
  simpa [Char.ofNat_toNat] using this

theorem cmpChar_lt_trans {a b c : Char} (h1 : cmpChar a b = .lt)
    (h2 : cmpChar b c = .lt) : cmpChar a c = .lt := by
  exact Nat.compare_eq_lt.mpr
    (Nat.lt_trans (Nat.compare_eq_lt.mp h1) (Nat.compare_eq_lt.mp h2))

theorem ordering_then_swap (x y : Ordering) : (x.then y).swap = x.swap.then y.swap := by
  cases x <;> rfl

theorem cmpLex_refl (c : α → α → Ordering) (h : ∀ a, c a a = .eq) :
    ∀ l, cmpLex c l l = .eq
  | [] => rfl
  | a :: as => by simp [cmpLex, h a, Ordering.then, cmpLex_refl c h as]

theorem cmpLex_swap (c : α → α → Ordering) (h : ∀ a b, c b a = (c a b).swap) :
    ∀ l m, cmpLex c m l = (cmpLex c l m).swap
  | [], [] => rfl
  | [], _ :: _ => rfl
  | _ :: _, [] => rfl
  | a :: as, b :: bs => by
    simp [cmpLex, h a b, cmpLex_swap c h as bs, ordering_then_swap]

theorem cmpLex_eq (c : α → α → Ordering) (h : ∀ a b, c a b = .eq → a = b) :
    ∀ l m, cmpLex c l m = .eq → l = m
  | [], [], _ => rfl
  | a :: as, b :: bs, hlm => by
    rcases hab : c a b with _ | _ | _ <;> rw [cmpLex, hab] at hlm
    · cases hlm
    · exact by rw [h a b hab, cmpLex_eq c h as bs hlm]
    · cases hlm

theorem cmpLex_lt_trans (c : α → α → Ordering) (heq : ∀ a b, c a b = .eq → a = b)
    (hlt : ∀ a b d, c a b = .lt → c b d = .lt → c a d = .lt) :
    ∀ l m n, cmpLex c l m = .lt → cmpLex c m n = .lt → cmpLex c l n = .lt
  | [], [], _, h1, _ => by cases h1
  | [], _ :: _, [], _, h2 => by cases h2
  | [], _ :: _, _ :: _, _, _ => rfl
  | _ :: _, [], _, h1, _ => by cases h1
  | _ :: _, _ :: _, [], _, h2 => by cases h2
  | a :: as, b :: bs, d :: ds, h1, h2 => by
    rw [cmpLex] at h1 h2 ⊢
    rcases hab : c a b with _ | _ | _ <;> rw [hab] at h1
    · rcases hbd : c b d with _ | _ | _ <;> rw [hbd] at h2
      · have had : c a d = .lt := hlt a b d hab hbd
        rw [had]; rfl
      · have had : c a d = .lt := by rw [← heq b d hbd]; exact hab
        rw [had]; rfl
      · exact absurd h2 (by simp [Ordering.then])
    · have hb : a = b := heq a b hab
      have h1' : cmpLex c as bs = .lt := by simpa [Ordering.then] using h1
      rcases hbd : c b d with _ | _ | _ <;> rw [hbd] at h2
      · have had : c a d = .lt := by rw [hb]; exact hbd
        rw [had]; rfl
      · have h2' : cmpLex c bs ds = .lt := by simpa [Ordering.then] using h2
        have had : c a d = .eq := by rw [hb]; exact hbd
        rw [had]
        simpa [Ordering.then] using cmpLex_lt_trans c heq hlt as bs ds h1' h2'
      · exact absurd h2 (by simp [Ordering.then])
    · exact absurd h1 (by simp [Ordering.then])

theorem compare_nat_self (n : Nat) : compare n n = Ordering.eq :=
  Nat.compare_eq_eq.mpr rfl

theorem cmpRun_refl (a : NatRun) : cmpRun a a = .eq := by
  cases a with
  | strRun s => exact cmpLex_refl cmpChar cmpChar_refl s
  | numRun v l =>
    show (compare v v).then (compare l l) = .eq
    rw [compare_nat_self, compare_nat_self]; rfl

theorem cmpRun_swap (a b : NatRun) : cmpRun b a = (cmpRun a b).swap := by
  cases a with
  | strRun s =>
    cases b with
    | strRun t => exact cmpLex_swap cmpChar cmpChar_swap s t
    | numRun w m => rfl
  | numRun v l =>
    cases b with
    | strRun t => rfl
    | numRun w m =>
      show (compare w v).then (compare m l) = ((compare v w).then (compare l m)).swap
      rw [ordering_then_swap, nat_compare_swap v w, nat_compare_swap l m]

theorem cmpRun_eq : ∀ {a b : NatRun}, cmpRun a b = .eq → a = b
  | .strRun s, .strRun t, h => by
    rw [cmpLex_eq cmpChar (fun _ _ => cmpChar_eq) s t h]
  | .strRun _, .numRun _ _, h => nomatch h
  | .numRun _ _, .strRun _, h => nomatch h
  | .numRun v l, .numRun w m, h => by
    have h' : (compare v w).then (compare l m) = .eq := h
    rcases hvw : compare v w with _ | _ | _ <;> rw [hvw] at h'
    · simp [Ordering.then] at h'
    · have h'' : compare l m = .eq := by simpa [Ordering.then] using h'
      rw [Nat.compare_eq_eq.mp hvw, Nat.compare_eq_eq.mp h'']
    · simp [Ordering.then] at h'

theorem cmpRun_lt_trans : ∀ {a b c : NatRun},
    cmpRun a b = .lt → cmpRun b c = .lt → cmpRun a c = .lt
  | .strRun s, .strRun t, .strRun u, h1, h2 =>
    cmpLex_lt_trans cmpChar (fun _ _ => cmpChar_eq)
      (fun _ _ _ => cmpChar_lt_trans) s t u h1 h2
  | .strRun _, .strRun _, .numRun _ _, _, h2 => nomatch h2
  | .strRun _, .numRun _ _, _, h1, _ => nomatch h1
  | .numRun _ _, _, .strRun _, _, _ => rfl
  | .numRun v l, .strRun _, .numRun _ _, _, h2 => nomatch h2
  | .numRun v l, .numRun w m, .numRun x n, h1, h2 => by
    show (compare v x).then (compare l n) = .lt
    have h1' : (compare v w).then (compare l m) = .lt := h1
    have h2' : (compare w x).then (compare m n) = .lt := h2
    rcases hvw : compare v w with _ | _ | _ <;> rw [hvw] at h1'
    · rcases hwx : compare w x with _ | _ | _ <;> rw [hwx] at h2'
      · have : compare v x = .lt := Nat.compare_eq_lt.mpr
          (Nat.lt_trans (Nat.compare_eq_lt.mp hvw) (Nat.compare_eq_lt.mp hwx))
        rw [this]; rfl
      · have : compare v x = .lt := by rw [← Nat.compare_eq_eq.mp hwx]; exact hvw
        rw [this]; rfl
      · exact absurd h2' (by simp [Ordering.then])
    · have hv : v = w := Nat.compare_eq_eq.mp hvw
      have hl : compare l m = .lt := by simpa [Ordering.then] using h1'
      rcases hwx : compare w x with _ | _ | _ <;> rw [hwx] at h2'
      · have : compare v x = .lt := by rw [hv]; exact hwx
        rw [this]; rfl
      · have hm : compare m n = .lt := by simpa [Ordering.then] using h2'
        have hx : w = x := Nat.compare_eq_eq.mp hwx
        have hvx : compare v x = .eq := by rw [hv, hx]; exact compare_nat_self x
        rw [hvx]
        simpa [Ordering.then] using Nat.compare_eq_lt.mpr
          (Nat.lt_trans (Nat.compare_eq_lt.mp hl) (Nat.compare_eq_lt.mp hm))
      · exact absurd h2' (by simp [Ordering.then])
    · exact absurd h1' (by simp [Ordering.then])

/-! ## `src/path.rs`: URL helpers -/

/-- `str.strip_prefix(pat)`: drop a leading pattern, or `none`. -/
def dropLead : List Char → List Char → Option (List Char)
  | [], s => some s
  | _ :: _, [] => none
  | p :: ps, c :: cs => if p = c then dropLead ps cs else none

/-- `path.rs::to_url`: `format!("file://{}", path.display())`. -/
def to_url (path : RPath) : RPath := str "file://" ++ path

/-- `path.rs::to_path`: `url.strip_prefix("file://").map(PathBuf::from)`. -/
def to_path (url : RPath) : Option RPath := dropLead (str "file://") url

/-! ## `src/main.rs`: the viewer state and its operations

Filesystem facts (`read_dir` results, `is_file`, `is_dir`) are inputs of the
model; random shuffling (`SliceRandom::shuffle` with a fresh thread rng) is a
function parameter, assumed to permute its input where a theorem needs it. -/

/-- One entry of `std::fs::read_dir`: its file name (last path component) and
whether the path is a regular file. -/
structure DirEntry where
  name : RPath
  is_file : Bool
deriving DecidableEq

/-- `n.to_string_lossy().starts_with('.')`. -/
def startsWithDot : RPath → Bool
  | [] => false
  | c :: _ => c = '.'

/-- Split a file name at its last dot: `some (stem, ext)` if a dot exists. -/
def lastDotSplit : List Char → Option (List Char × List Char)
  | [] => none
  | c :: cs =>
    match lastDotSplit cs with
    | some (st, ex) => some (c :: st, ex)
    | none => if c = '.' then some ([], cs) else none

/-- Rust `Path::extension` on a file name: `none` when there is no dot, when
the only dot is the leading one, or for `".."`; otherwise the portion after
the last dot. -/
def extension (name : RPath) : Option RPath :=
  if name = str ".." then none
  else
    match lastDotSplit name with
    | some (st, ex) => if st = [] then none else some ex
    | none => none

/-- `char::to_ascii_lowercase`. -/
def asciiLower (c : Char) : Char :=
  if 'A' ≤ c ∧ c ≤ 'Z' then Char.ofNat (c.toNat + 32) else c

/-- The allow-list `["jpg", "jpeg", "png", "bmp", "gif", "webp", "avif"]`. -/
def exts : List RPath :=
  [str "jpg", str "jpeg", str "png", str "bmp", str "gif", str "webp", str "avif"]

/-- The first filter of `open_dir`: keep regular files whose name does not
start with `'.'` (`read_dir` entries always have a file name). -/
def passesFirstFilter (e : DirEntry) : Bool :=
  e.is_file && !startsWithDot e.name

/-- The `retain` filter of `open_dir`: the extension, lower-cased ASCII, is in
the allow-list (`unwrap_or(false)` when there is no extension). -/
def passesExtFilter (name : RPath) : Bool :=
  match extension name with
  | some ex => exts.contains (ex.map asciiLower)
  | none => false

/-- The whole entry-filtering pipeline of `open_dir`. -/
def filterEntries (des : List DirEntry) : List RPath :=
  ((des.filter passesFirstFilter).map DirEntry.name).filter passesExtFilter

/-- `Vec::sort` on `PathSortable`: stable sort ascending by `natural_cmp`.
A structural stable sort stands in for Rust's stable mergesort: since the
comparator is a total order (equal compare only for equal strings, proved
below), every stable sort produces the same output. -/
def sortNat (l : List RPath) : List RPath :=
  List.insertionSort (fun a b => natural_cmp a b ≠ Ordering.gt) l

/-- `Iterator::position`. -/
def position (p : α → Bool) : List α → Option Nat
  | [] => none
  | a :: as => if p a then some 0 else (position p as).map (· + 1)

/-- The state of `struct ImageViewer`. -/
structure ImageViewer where
  current_src : Option RPath
  image_size : Nat × Nat
  files : List RPath
  index : Nat
  randomize : Bool
deriving DecidableEq

/-- `impl Default for ImageViewer`. -/
def ImageViewer.default : ImageViewer :=
  { current_src := none
    image_size := (0, 0)
    files := []
    index := 0
    randomize := true }

/-- `ImageViewer::open_dir`.  `dir` is the outcome of `std::fs::read_dir`
(error value = the I/O error's string); the returned `Option RPath` is the
`Err` message, `none` meaning `Ok(())` (the Rust method mutates `self`, so the
new state is returned alongside).  Indexing `files[0]` is modelled by `getD`;
in Rust it cannot panic because the emptiness check precedes it and `shuffle`
permutes in place. -/
def open_dir (s : ImageViewer) (dir : Except RPath (List DirEntry))
    (shuffle : List RPath → List RPath) : ImageViewer × Option RPath :=
  match dir with
  | .error e => (s, some e)
  | .ok des =>
    let entries := filterEntries des
    if entries.isEmpty then (s, some (str "No image files found in directory"))
    else
      let files := if s.randomize then shuffle entries else sortNat entries
      ({ s with
          files := files
          index := 0
          current_src := some (to_url (files.getD 0 []))
          image_size := (0, 0) }, none)

/-- `ImageViewer::next`. -/
def ImageViewer.next (s : ImageViewer) : ImageViewer :=
  if s.files.isEmpty then s
  else
    let i := (s.index + 1) % s.files.length
    { s with
      index := i
      current_src := some (to_url (s.files.getD i []))
      image_size := (0, 0) }

/-- `ImageViewer::prev`. -/
def ImageViewer.prev (s : ImageViewer) : ImageViewer :=
  if s.files.isEmpty then s
  else
    let i := if s.index = 0 then s.files.length - 1 else s.index - 1
    { s with
      index := i
      current_src := some (to_url (s.files.getD i []))
      image_size := (0, 0) }

/-- The single-file branch of the drag-and-drop handler in
`ImageViewer::update`: replace the set with that one path, index 0,
`current_src = format!("file://{}", p.display())` (note: `image_size` is not
reset on this path in the source). -/
def loadSingleFile (s : ImageViewer) (p : RPath) : ImageViewer :=
  { s with files := [p], index := 0, current_src := some (str "file://" ++ p) }

/-- The randomize-toggle branch of `ImageViewer::update` (runs when the
toggle value changed): flip `randomize`; when the set is non-empty, reorder it
(shuffle when entering Random, `sort` when entering Sequential) and re-locate
the previously displayed path by equality, falling back to index 0. -/
def toggleRandomize (s : ImageViewer) (shuffle : List RPath → List RPath) :
    ImageViewer :=
  if s.files.isEmpty then { s with randomize := !s.randomize }
  else
    let cur_path := s.current_src.bind to_path
    let files := if !s.randomize then shuffle s.files else sortNat s.files
    match cur_path with
    | some cur =>
      match position (fun q => q == cur) files with
      | some pos =>
        { s with
          randomize := !s.randomize
          files := files
          index := pos
          current_src := some (to_url (files.getD pos []))
          image_size := (0, 0) }
      | none =>
        { s with
          randomize := !s.randomize
          files := files
          index := 0
          current_src := some (to_url (files.getD 0 []))
          image_size := (0, 0) }
    | none =>
      { s with
        randomize := !s.randomize
        files := files
        index := 0
        current_src := some (to_url (files.getD 0 []))
        image_size := (0, 0) }

/-- One dropped file from `ctx.input(|i| i.raw.dropped_files)`: its optional
path and the filesystem answers to `is_dir` / `is_file`. -/
structure DroppedFile where
  path : Option RPath
  is_dir : Bool
  is_file : Bool
deriving DecidableEq

/-- The drag-and-drop loop of `ImageViewer::update`: walk the dropped files;
on the first one whose path is a directory call `open_dir` (result discarded)
and stop; on the first one whose path is a regular file load it as a single
file and stop; skip entries with no path or with a path that is neither. -/
def handleDrop (s : ImageViewer) (dropped : List DroppedFile)
    (readDir : RPath → Except RPath (List DirEntry))
    (shuffle : List RPath → List RPath) : ImageViewer :=
  match dropped with
  | [] => s
  | f :: rest =>
    match f.path with
    | some p =>
      if f.is_dir then (open_dir s (readDir p) shuffle).1
      else if f.is_file then loadSingleFile s p
      else handleDrop s rest readDir shuffle
    | none => handleDrop s rest readDir shuffle

/-- Modelled from the spec (for comparison with `handleDrop`): "the
implementation uses the first directory found, else the first regular file
found, ignoring the rest". -/
def handleDropSpecModel (s : ImageViewer) (dropped : List DroppedFile)
    (readDir : RPath → Except RPath (List DirEntry))
    (shuffle : List RPath → List RPath) : ImageViewer :=
  match dropped.find? (fun f => f.path.isSome && f.is_dir) with
  | some f =>
    match f.path with
    | some p => (open_dir s (readDir p) shuffle).1
    | none => s
  | none =>
    match dropped.find? (fun f => f.path.isSome && f.is_file) with
    | some f =>
      match f.path with
      | some p => loadSingleFile s p
      | none => s
    | none => s

/-! ## Helper lemmas -/

theorem dropLead_append (p : List Char) : ∀ s, dropLead p (p ++ s) = some s := by
  induction p with
  | nil => intro s; rfl
  | cons c cs ih => intro s; simp [dropLead, ih]

theorem to_path_to_url (p : RPath) : to_path (to_url p) = some p :=
  dropLead_append (str "file://") p

theorem position_some {f : α → Bool} {d : α} :
    ∀ {l : List α} {i : Nat}, position f l = some i →
      i < l.length ∧ f (l.getD i d) = true := by
  intro l
  induction l with
  | nil => intro i h; cases h
  | cons a as ih =>
    intro i h
    rw [position] at h
    by_cases ha : f a = true
    · rw [if_pos ha] at h
      cases h
      exact ⟨Nat.succ_pos _, ha⟩
    · rw [if_neg ha] at h
      rcases hp : position f as with _ | j
      · rw [hp] at h; cases h
      · rw [hp] at h
        cases h
        rcases ih hp with ⟨hlt, hf⟩
        exact ⟨Nat.succ_lt_succ hlt, hf⟩

theorem position_isSome_of_mem {f : α → Bool} {a : α} :
    ∀ {l : List α}, a ∈ l → f a = true → (position f l).isSome = true := by
  intro l
  induction l with
  | nil => intro h; cases h
  | cons b bs ih =>
    intro hm hf
    rw [position]
    by_cases hb : f b = true
    · rw [if_pos hb]; rfl
    · rw [if_neg hb]
      cases hm with
      | head => exact absurd hf hb
      | tail _ hm =>
        have hsome := ih hm hf
        rcases hop : position f bs with _ | j
        · rw [hop] at hsome; exact absurd hsome (by simp)
        · simp

theorem position_beq_getD {cur : RPath} {l : List RPath} {i : Nat}
    (h : position (fun q => q == cur) l = some i) :
    i < l.length ∧ l.getD i [] = cur := by
  rcases position_some (d := []) h with ⟨hlt, hf⟩
  exact ⟨hlt, by simpa using hf⟩

theorem sortNat_perm (l : List RPath) : (sortNat l).Perm l :=
  List.perm_insertionSort _ l

theorem reorder_perm (shuffle : List RPath → List RPath)
    (hsh : ∀ l, (shuffle l).Perm l) (b : Bool) (l : List RPath) :
    (if b then shuffle l else sortNat l).Perm l := by
  cases b
  · exact sortNat_perm l
  · exact hsh l

theorem next_eq_of_empty (s : ImageViewer) (h : s.files = []) : s.next = s := by
  rw [ImageViewer.next, if_pos (List.isEmpty_iff.mpr h)]

theorem prev_eq_of_empty (s : ImageViewer) (h : s.files = []) : s.prev = s := by
  rw [ImageViewer.prev, if_pos (List.isEmpty_iff.mpr h)]

theorem next_files (s : ImageViewer) : s.next.files = s.files := by
  rw [ImageViewer.next]
  by_cases h : s.files.isEmpty = true
  · rw [if_pos h]
  · rw [if_neg h]

theorem prev_files (s : ImageViewer) : s.prev.files = s.files := by
  rw [ImageViewer.prev]
  by_cases h : s.files.isEmpty = true
  · rw [if_pos h]
  · rw [if_neg h]

theorem next_index (s : ImageViewer) (h : s.files ≠ []) :
    s.next.index = (s.index + 1) % s.files.length := by
  rw [ImageViewer.next, if_neg (by simp [List.isEmpty_iff, h])]

theorem prev_index (s : ImageViewer) (h : s.files ≠ []) :
    s.prev.index = if s.index = 0 then s.files.length - 1 else s.index - 1 := by
  rw [ImageViewer.prev, if_neg (by simp [List.isEmpty_iff, h])]

theorem mem_filterEntries {des : List DirEntry} {p : RPath} :
    p ∈ filterEntries des ↔
      ∃ e ∈ des, e.name = p ∧ e.is_file = true ∧ startsWithDot p = false ∧
        ∃ ex, extension p = some ex ∧ ex.map asciiLower ∈ exts := by
  constructor
  · intro h
    rw [filterEntries, List.mem_filter] at h
    rcases h with ⟨hmap, hext⟩
    rw [List.mem_map] at hmap
    rcases hmap with ⟨e, he, hname⟩
    rw [List.mem_filter] at he
    rcases he with ⟨hdes, hfirst⟩
    rw [passesFirstFilter, Bool.and_eq_true, Bool.not_eq_true'] at hfirst
    refine ⟨e, hdes, hname, hfirst.1, hname ▸ hfirst.2, ?_⟩
    rw [passesExtFilter] at hext
    rcases hex : extension p with _ | ex
    · rw [hex] at hext; cases hext
    · rw [hex] at hext
      exact ⟨ex, rfl, by simpa using hext⟩
  · rintro ⟨e, hdes, hname, hfile, hdot, ex, hex, hmem⟩
    rw [filterEntries, List.mem_filter]
    refine ⟨?_, ?_⟩
    · rw [List.mem_map]
      refine ⟨e, ?_, hname⟩
      rw [List.mem_filter]
      refine ⟨hdes, ?_⟩
      rw [passesFirstFilter, Bool.and_eq_true, Bool.not_eq_true', hname]
      exact ⟨hfile, hdot⟩
    · rw [passesExtFilter, hex]
      simpa using hmem

theorem open_dir_error (s : ImageViewer) (shuffle : List RPath → List RPath)
    (e : RPath) : open_dir s (.error e) shuffle = (s, some e) := rfl

theorem open_dir_empty (s : ImageViewer) (shuffle : List RPath → List RPath)
    (des : List DirEntry) (h : filterEntries des = []) :
    open_dir s (.ok des) shuffle =
      (s, some (str "No image files found in directory")) := by
  rw [open_dir]
  simp [h]

theorem open_dir_ok (s : ImageViewer) (shuffle : List RPath → List RPath)
    (des : List DirEntry) (h : ¬ filterEntries des = []) :
    open_dir s (.ok des) shuffle =
      ({ s with
          files := if s.randomize then shuffle (filterEntries des)
                   else sortNat (filterEntries des)
          index := 0
          current_src := some (to_url ((if s.randomize then shuffle (filterEntries des)
                   else sortNat (filterEntries des)).getD 0 []))
          image_size := (0, 0) }, none) := by
  rw [open_dir]
  simp [List.isEmpty_iff, h]

theorem toggle_empty (s : ImageViewer) (shuffle : List RPath → List RPath)
    (h : s.files = []) :
    toggleRandomize s shuffle = { s with randomize := !s.randomize } := by
  rw [toggleRandomize, if_pos (List.isEmpty_iff.mpr h)]

theorem toggle_files_perm (s : ImageViewer) (shuffle : List RPath → List RPath)
    (hsh : ∀ l, (shuffle l).Perm l) :
    (toggleRandomize s shuffle).files.Perm s.files := by
  by_cases he : s.files = []
  · rw [toggle_empty s shuffle he]
  · have hperm := reorder_perm shuffle hsh (!s.randomize) s.files
    rw [toggleRandomize, if_neg (by simp [List.isEmpty_iff, he])]
    simp only []
    split
    · split
      · exact hperm
      · exact hperm
    · exact hperm

/-- The index invariant of the viewer: the set is empty or the index is in
bounds. -/
def IndexInv (s : ImageViewer) : Prop := s.files = [] ∨ s.index < s.files.length

theorem indexInv_default : IndexInv ImageViewer.default := Or.inl rfl

theorem indexInv_next (s : ImageViewer) (h : IndexInv s) : IndexInv s.next := by
  by_cases he : s.files = []
  · rw [next_eq_of_empty s he]; exact h
  · right
    rw [next_files, next_index s he]
    exact Nat.mod_lt _ (List.length_pos.mpr he)

theorem indexInv_prev (s : ImageViewer) (h : IndexInv s) : IndexInv s.prev := by
  by_cases he : s.files = []
  · rw [prev_eq_of_empty s he]; exact h
  · right
    rw [prev_files, prev_index s he]
    have hlen : 0 < s.files.length := List.length_pos.mpr he
    rcases h with h | h
    · exact absurd h he
    · by_cases hz : s.index = 0
      · rw [if_pos hz]; omega
      · rw [if_neg hz]; omega

theorem indexInv_open_dir (s : ImageViewer) (dir : Except RPath (List DirEntry))
    (shuffle : List RPath → List RPath) (hsh : ∀ l, (shuffle l).Perm l)
    (h : IndexInv s) : IndexInv (open_dir s dir shuffle).1 := by
  cases dir with
  | error e => rw [open_dir_error]; exact h
  | ok des =>
    by_cases hf : filterEntries des = []
    · rw [open_dir_empty s shuffle des hf]; exact h
    · rw [open_dir_ok s shuffle des hf]
      have hlen : 0 < (if s.randomize then shuffle (filterEntries des)
          else sortNat (filterEntries des)).length := by
        rw [(reorder_perm shuffle hsh s.randomize (filterEntries des)).length_eq]
        exact List.length_pos.mpr hf
      exact Or.inr hlen

theorem indexInv_loadSingleFile (s : ImageViewer) (p : RPath) :
    IndexInv (loadSingleFile s p) := Or.inr (by simp [loadSingleFile])

theorem indexInv_toggle (s : ImageViewer) (shuffle : List RPath → List RPath)
    (hsh : ∀ l, (shuffle l).Perm l) (h : IndexInv s) :
    IndexInv (toggleRandomize s shuffle) := by
  by_cases he : s.files = []
  · rw [toggle_empty s shuffle he]; exact Or.inl he
  · rw [toggleRandomize, if_neg (by simp [List.isEmpty_iff, he])]
    have hlen : 0 < (if !s.randomize then shuffle s.files
        else sortNat s.files).length := by
      rw [(reorder_perm shuffle hsh (!s.randomize) s.files).length_eq]
      exact List.length_pos.mpr he
    rcases hcp : s.current_src.bind to_path with _ | cur
    · simp only [hcp]
      exact Or.inr hlen
    · simp only [hcp]
      rcases hps : position (fun q => q == cur)
          (if !s.randomize then shuffle s.files else sortNat s.files) with _ | pos
      · simp only [hps]
        exact Or.inr hlen
      · simp only [hps]
        exact Or.inr (position_some (d := []) hps).1

theorem indexInv_handleDrop (s : ImageViewer) (dropped : List DroppedFile)
    (readDir : RPath → Except RPath (List DirEntry))
    (shuffle : List RPath → List RPath) (hsh : ∀ l, (shuffle l).Perm l)
    (h : IndexInv s) : IndexInv (handleDrop s dropped readDir shuffle) := by
  induction dropped with
  | nil => exact h
  | cons f rest ih =>
    rw [handleDrop]
    rcases hp : f.path with _ | p
    · simp only [hp]
      exact ih
    · simp only [hp]
      by_cases hd : f.is_dir = true
      · rw [if_pos hd]
        exact indexInv_open_dir s (readDir p) shuffle hsh h
      · rw [if_neg hd]
        by_cases hf : f.is_file = true
        · rw [if_pos hf]
          exact indexInv_loadSingleFile s p
        · rw [if_neg hf]
          exact ih

/-! ## Claims -/

/-- **C8**: the natural comparator used to order `PathSortable` is a strict
total order on path strings: consistent with equality (`cmp a a = eq`),
antisymmetric (`cmp b a` is the reverse of `cmp a b`), and transitive. -/
theorem natural_cmp_strict_total_order :
    (∀ a : RPath, natural_cmp a a = .eq) ∧
    (∀ a b : RPath, natural_cmp b a = (natural_cmp a b).swap) ∧
    (∀ a b c : RPath, natural_cmp a b = .lt → natural_cmp b c = .lt →
      natural_cmp a c = .lt) :=
  ⟨fun a => cmpLex_refl cmpRun cmpRun_refl (tokenize a),
   fun a b => cmpLex_swap cmpRun cmpRun_swap (tokenize a) (tokenize b),
   fun a b c h1 h2 => cmpLex_lt_trans cmpRun (fun _ _ => cmpRun_eq)
     (fun _ _ _ h1' h2' => cmpRun_lt_trans h1' h2')
     (tokenize a) (tokenize b) (tokenize c) h1 h2⟩

/-- Witness for C8: transitivity applied at concrete strings. -/
theorem natural_cmp_strict_total_order_witness :
    natural_cmp (str "a") (str "c") = .lt :=
  natural_cmp_strict_total_order.2.2 (str "a") (str "b") (str "c")
    (by decide) (by decide)

/-- **C9**: digit runs compare by integer value, so `"img2.png"` orders
strictly before `"img10.png"`. -/
theorem natural_cmp_numeric_runs :
    natural_cmp (str "img2.png") (str "img10.png") = .lt ∧
    natural_cmp (str "img10.png") (str "img2.png") = .gt :=
  ⟨by decide, by decide⟩

/-- **C2**: `open_dir` keeps exactly the direct entries that are regular
files, not hidden, with a case-insensitive allow-listed extension; on the
spec's example directory the natural-sorted result is exactly
`["a.png", "b.jpg", "c.PNG"]`. -/
theorem load_filter_characterization (des : List DirEntry) (p : RPath) :
    (p ∈ filterEntries des ↔
      ∃ e ∈ des, e.name = p ∧ e.is_file = true ∧ startsWithDot p = false ∧
        ∃ ex, extension p = some ex ∧ ex.map asciiLower ∈ exts) ∧
    sortNat (filterEntries
        [⟨str "b.jpg", true⟩, ⟨str "a.png", true⟩, ⟨str ".hidden.png", true⟩,
         ⟨str "notes.txt", true⟩, ⟨str "c.PNG", true⟩]) =
      [str "a.png", str "b.jpg", str "c.PNG"] :=
  ⟨mem_filterEntries, by decide⟩

/-- **C3**: a failed `open_dir` (unreadable directory, or nothing passes the
filter) reports a message and leaves the whole prior state unmodified; a
successful one replaces the set wholesale and resets the index to 0. -/
theorem open_dir_failure_leaves_state (s : ImageViewer)
    (dir : Except RPath (List DirEntry)) (shuffle : List RPath → List RPath) :
    (∀ msg, (open_dir s dir shuffle).2 = some msg →
      (open_dir s dir shuffle).1 = s ∧
      (dir = .error msg ∨ msg = str "No image files found in directory")) ∧
    ((open_dir s dir shuffle).2 = none →
      ∃ des, dir = .ok des ∧ ¬ filterEntries des = [] ∧
        (open_dir s dir shuffle).1.files =
          (if s.randomize then shuffle (filterEntries des)
           else sortNat (filterEntries des)) ∧
        (open_dir s dir shuffle).1.index = 0) := by
  cases dir with
  | error e =>
    rw [open_dir_error]
    refine ⟨?_, ?_⟩
    · intro msg hm
      cases hm
      exact ⟨rfl, Or.inl rfl⟩
    · intro hn; cases hn
  | ok des =>
    by_cases hf : filterEntries des = []
    · rw [open_dir_empty s shuffle des hf]
      refine ⟨?_, ?_⟩
      · intro msg hm
        cases hm
        exact ⟨rfl, Or.inr rfl⟩
      · intro hn; cases hn
    · rw [open_dir_ok s shuffle des hf]
      refine ⟨?_, ?_⟩
      · intro msg hm; cases hm
      · intro _
        exact ⟨des, rfl, hf, rfl, rfl⟩

/-- Witness for C3: an unreadable directory leaves the default state intact
and surfaces the I/O message. -/
theorem open_dir_failure_leaves_state_witness :
    (open_dir ImageViewer.default (.error (str "boom")) id).1 =
        ImageViewer.default ∧
    ((Except.error (str "boom") : Except RPath (List DirEntry)) =
        .error (str "boom") ∨
      str "boom" = str "No image files found in directory") :=
  (open_dir_failure_leaves_state ImageViewer.default (.error (str "boom"))
    id).1 (str "boom") rfl

/-- A concrete non-empty viewer state used by witnesses. -/
def sampleViewer : ImageViewer :=
  { current_src := some (to_url (str "b.jpg"))
    image_size := (0, 0)
    files := [str "a.png", str "b.jpg"]
    index := 1
    randomize := false }

/-- **C4**: from any in-bounds index of a non-empty set, `next` then `prev`
(and `prev` then `next`) returns to the original index; `next` advances by
`(index + 1) % length`, `prev` retreats by `(index − 1 + length) % length`,
and both are no-ops on an empty set. -/
theorem next_prev_round_trip (s : ImageViewer) (h : s.index < s.files.length) :
    s.next.prev.index = s.index ∧ s.prev.next.index = s.index ∧
    s.next.index = (s.index + 1) % s.files.length ∧
    s.prev.index = (s.index + s.files.length - 1) % s.files.length ∧
    (∀ t : ImageViewer, t.files = [] → t.next = t ∧ t.prev = t) := by
  have hne : s.files ≠ [] := by
    intro hnil; rw [hnil] at h; simp at h
  have hlen : 0 < s.files.length := List.length_pos.mpr hne
  have hnn : s.next.files ≠ [] := by rw [next_files]; exact hne
  have hnp : s.prev.files ≠ [] := by rw [prev_files]; exact hne
  have hcase : s.index + 1 = s.files.length ∨ s.index + 1 < s.files.length := by
    omega
  refine ⟨?_, ?_, ?_, ?_, ?_⟩
  · rw [prev_index s.next hnn, next_files, next_index s hne]
    rcases hcase with hc | hc
    · rw [hc, Nat.mod_self, if_pos rfl]; omega
    · rw [Nat.mod_eq_of_lt hc, if_neg (by omega)]; omega
  · rw [next_index s.prev hnp, prev_files, prev_index s hne]
    by_cases hz : s.index = 0
    · rw [if_pos hz, hz]
      have he1 : s.files.length - 1 + 1 = s.files.length := by omega
      rw [he1, Nat.mod_self]
    · rw [if_neg hz]
      have he1 : s.index - 1 + 1 = s.index := by omega
      rw [he1, Nat.mod_eq_of_lt h]
  · exact next_index s hne
  · rw [prev_index s hne]
    by_cases hz : s.index = 0
    · rw [if_pos hz, hz]
      have he1 : 0 + s.files.length - 1 = s.files.length - 1 := by omega
      rw [he1, Nat.mod_eq_of_lt (by omega)]
    · rw [if_neg hz]
      have he1 : s.index + s.files.length - 1 = s.index - 1 + s.files.length := by
        omega
      rw [he1, Nat.add_mod_right, Nat.mod_eq_of_lt (by omega)]
  · intro t ht
    exact ⟨next_eq_of_empty t ht, prev_eq_of_empty t ht⟩

/-- Witness for C4: the round trip at a concrete two-element state. -/
theorem next_prev_round_trip_witness :
    sampleViewer.next.prev.index = sampleViewer.index :=
  (next_prev_round_trip sampleViewer (by decide)).1

/-- **C10**: the startup state has `randomize = true`, an empty set, index 0
and no current source, so the first successful directory load shuffles the
filtered set instead of natural-sorting it. -/
theorem default_random_first_load (des : List DirEntry)
    (shuffle : List RPath → List RPath) (h : ¬ filterEntries des = []) :
    ImageViewer.default.randomize = true ∧
    ImageViewer.default.files = [] ∧
    ImageViewer.default.index = 0 ∧
    ImageViewer.default.current_src = none ∧
    (open_dir ImageViewer.default (.ok des) shuffle).1.files =
      shuffle (filterEntries des) := by
  refine ⟨rfl, rfl, rfl, rfl, ?_⟩
  rw [open_dir_ok ImageViewer.default shuffle des h]
  rfl

/-- Witness for C10: the first load of a one-image directory from the default
state goes through the shuffle branch. -/
theorem default_random_first_load_witness :
    (open_dir ImageViewer.default (.ok [⟨str "a.png", true⟩]) id).1.files =
      id (filterEntries [⟨str "a.png", true⟩]) :=
  (default_random_first_load [⟨str "a.png", true⟩] id (by decide)).2.2.2.2

/-- **C1**: toggling the display mode on a non-empty set reorders it (shuffle
entering Random, natural sort entering Sequential) but keeps the displayed
path: the anchor shown before the toggle is re-located by equality and the
index points at it afterwards. -/
theorem toggle_keeps_displayed_path (s : ImageViewer)
    (shuffle : List RPath → List RPath) (hsh : ∀ l, (shuffle l).Perm l)
    (p : RPath) (hp : p ∈ s.files) (hsrc : s.current_src = some (to_url p)) :
    (toggleRandomize s shuffle).current_src = s.current_src ∧
    (toggleRandomize s shuffle).files.getD (toggleRandomize s shuffle).index []
      = p ∧
    (toggleRandomize s shuffle).files.Perm s.files := by
  have hne : ¬ s.files = [] := by
    intro hnil; rw [hnil] at hp; cases hp
  have hperm := reorder_perm shuffle hsh (!s.randomize) s.files
  have hmem : p ∈ (if !s.randomize then shuffle s.files else sortNat s.files) :=
    hperm.mem_iff.mpr hp
  have hcp : s.current_src.bind to_path = some p := by
    rw [hsrc]; exact to_path_to_url p
  have hsome := position_isSome_of_mem (f := fun q => q == p) hmem (by simp)
  rcases hps : position (fun q => q == p)
      (if !s.randomize then shuffle s.files else sortNat s.files) with _ | pos
  · rw [hps] at hsome; cases hsome
  · rcases position_beq_getD hps with ⟨hlt, hget⟩
    have htog : toggleRandomize s shuffle = { s with
        randomize := !s.randomize
        files := if !s.randomize then shuffle s.files else sortNat s.files
        index := pos
        current_src := some (to_url ((if !s.randomize then shuffle s.files
          else sortNat s.files).getD pos []))
        image_size := (0, 0) } := by
      rw [toggleRandomize, if_neg (by simp [List.isEmpty_iff, hne])]
      simp only [hcp, hps]
    rw [htog]
    refine ⟨?_, ?_, ?_⟩
    · show some (to_url ((if !s.randomize then shuffle s.files
        else sortNat s.files).getD pos [])) = s.current_src
      rw [hget, hsrc]
    · show (if !s.randomize then shuffle s.files else sortNat s.files).getD pos []
        = p
      exact hget
    · exact hperm

/-- Witness for C1: a toggle at a concrete two-element state keeps the
displayed source. -/
theorem toggle_keeps_displayed_path_witness :
    (toggleRandomize sampleViewer id).current_src = sampleViewer.current_src :=
  (toggle_keeps_displayed_path sampleViewer id (fun l => List.Perm.refl l)
    (str "b.jpg") (by decide) rfl).1

/-- **C5 counterexample**: with a regular file dropped before a directory, the
handler loads the file, while the claim requires the directory to win; the
two disagree on this input. -/
theorem drop_order_counterexample :
    (handleDrop ImageViewer.default
        [⟨some (str "a.png"), false, true⟩, ⟨some (str "d"), true, false⟩]
        (fun _ => .ok [⟨str "x.png", true⟩]) id).files = [str "a.png"] ∧
    (handleDropSpecModel ImageViewer.default
        [⟨some (str "a.png"), false, true⟩, ⟨some (str "d"), true, false⟩]
        (fun _ => .ok [⟨str "x.png", true⟩]) id).files = [str "x.png"] ∧
    [str "a.png"] ≠ [str "x.png"] :=
  ⟨rfl, by decide, by decide⟩

/-- **C5 amended**: the handler acts on the first dropped entry whose path is
a directory or a regular file, whichever kind comes first in the sequence —
opening the directory or loading the single file — and ignores everything
after it; entries with no path or with a path that is neither are skipped. -/
theorem drop_first_actionable (s : ImageViewer) (dropped : List DroppedFile)
    (readDir : RPath → Except RPath (List DirEntry))
    (shuffle : List RPath → List RPath) :
    handleDrop s dropped readDir shuffle =
      match dropped.find? (fun f => f.path.isSome && (f.is_dir || f.is_file)) with
      | some f =>
        match f.path with
        | some p =>
          if f.is_dir then (open_dir s (readDir p) shuffle).1
          else loadSingleFile s p
        | none => s
      | none => s := by
  induction dropped with
  | nil => rfl
  | cons f rest ih =>
    rw [handleDrop, List.find?_cons]
    rcases hp : f.path with _ | p
    · simp only [hp, Option.isSome_none, Bool.false_and]
      exact ih
    · simp only [hp, Option.isSome_some, Bool.true_and]
      by_cases hd : f.is_dir = true
      · simp [hd, hp]
      · rw [Bool.not_eq_true] at hd
        cases hf : f.is_file with
        | false =>
          simp only [hd, hf, Bool.false_or]
          exact ih
        | true =>
          simp [hd, hf, hp]

/-- **C6 counterexample**: dropping a single non-image file puts a path into
the owned set that fails the directory-entry filter. -/
theorem files_filtered_counterexample :
    (handleDrop ImageViewer.default [⟨some (str "notes.txt"), false, true⟩]
        (fun _ => .error []) id).files = [str "notes.txt"] ∧
    passesExtFilter (str "notes.txt") = false :=
  ⟨rfl, by decide⟩

/-- **C6 amended**: after a directory load every path in the set passes the
entry filter and (for distinct filtered entries) the set has no duplicates;
`next`/`prev` leave the set unchanged; a toggle permutes it; the single-file
drop replaces it by exactly the dropped path, which is never filtered. -/
theorem files_invariant_amended (s : ImageViewer) (des : List DirEntry)
    (shuffle : List RPath → List RPath) (hsh : ∀ l, (shuffle l).Perm l)
    (hnd : (filterEntries des).Nodup) :
    ((open_dir s (.ok des) shuffle).2 = none →
      (open_dir s (.ok des) shuffle).1.files.Nodup ∧
      ∀ p ∈ (open_dir s (.ok des) shuffle).1.files, passesExtFilter p = true ∧
        ∃ e ∈ des, e.name = p ∧ passesFirstFilter e = true) ∧
    s.next.files = s.files ∧ s.prev.files = s.files ∧
    (toggleRandomize s shuffle).files.Perm s.files ∧
    (∀ p, (loadSingleFile s p).files = [p]) := by
  refine ⟨?_, next_files s, prev_files s, toggle_files_perm s shuffle hsh,
    fun p => rfl⟩
  intro hok
  by_cases hf : filterEntries des = []
  · rw [open_dir_empty s shuffle des hf] at hok; cases hok
  · rw [open_dir_ok s shuffle des hf]
    have hperm := reorder_perm shuffle hsh s.randomize (filterEntries des)
    refine ⟨hperm.symm.nodup hnd, ?_⟩
    intro p hpmem
    have hpf : p ∈ filterEntries des := hperm.mem_iff.mp hpmem
    rcases mem_filterEntries.mp hpf with ⟨e, hdes, hname, hfile, hdot, ex, hex, hmem⟩
    refine ⟨?_, e, hdes, hname, ?_⟩
    · rw [passesExtFilter, hex]; simpa using hmem
    · rw [passesFirstFilter, Bool.and_eq_true, Bool.not_eq_true', hname]
      exact ⟨hfile, hdot⟩

/-- Witness for the amended C6: a toggle at a concrete state permutes the
set. -/
theorem files_invariant_amended_witness :
    (toggleRandomize sampleViewer id).files.Perm sampleViewer.files :=
  (files_invariant_amended sampleViewer [⟨str "a.png", true⟩] id
    (fun l => List.Perm.refl l) (by decide)).2.2.2.1

/-- **C7**: the startup state and every operation preserve the invariant that
the set is empty or the index is strictly within bounds. -/
theorem index_in_bounds_preserved (s : ImageViewer)
    (dir : Except RPath (List DirEntry)) (dropped : List DroppedFile)
    (readDir : RPath → Except RPath (List DirEntry))
    (shuffle : List RPath → List RPath) (hsh : ∀ l, (shuffle l).Perm l)
    (h : IndexInv s) :
    IndexInv ImageViewer.default ∧ IndexInv s.next ∧ IndexInv s.prev ∧
    IndexInv (toggleRandomize s shuffle) ∧
    IndexInv (open_dir s dir shuffle).1 ∧
    (∀ p, IndexInv (loadSingleFile s p)) ∧
    IndexInv (handleDrop s dropped readDir shuffle) :=
  ⟨indexInv_default, indexInv_next s h, indexInv_prev s h,
   indexInv_toggle s shuffle hsh h, indexInv_open_dir s dir shuffle hsh h,
   fun p => indexInv_loadSingleFile s p,
   indexInv_handleDrop s dropped readDir shuffle hsh h⟩

/-- Witness for C7: `next` keeps the index of a concrete state in bounds. -/
theorem index_in_bounds_preserved_witness : IndexInv sampleViewer.next :=
  (index_in_bounds_preserved sampleViewer (.error []) []
    (fun _ => .error []) id (fun l => List.Perm.refl l)
    (Or.inr (by decide))).2.1
